import Mathlib

/-!
Verification development for the Inventory component of pyble.py.

The program wraps a pandas DataFrame of phonetic segments (one row per
segment, one column per distinctive feature, plus the segment column
"Phoneme") and offers natural-class queries, a transform operation, and
table edits. The embedding below models a DataFrame as a list of column
names, an index (one label per row; after set_index the labels are the
values of the segment column) and rows given as association lists from
column name to cell. A pandas NaN cell is modelled as none; equality
between cells follows pandas, where NaN compares unequal to everything,
including another NaN. Fallible pandas operations (KeyError, IndexError)
are modelled with Except.
-/

set_option autoImplicit false

/-- Decidable equality for Except, so that concrete runs of the fallible
operations can be checked by decide. -/
instance {ε α : Type} [DecidableEq ε] [DecidableEq α] : DecidableEq (Except ε α) :=
  fun x y =>
  match x, y with
  | .ok a, .ok b =>
    if h : a = b then .isTrue (by rw [h]) else .isFalse (by intro hh; cases hh; exact h rfl)
  | .error a, .error b =>
    if h : a = b then .isTrue (by rw [h]) else .isFalse (by intro hh; cases hh; exact h rfl)
  | .ok _, .error _ => .isFalse (by intro hh; cases hh)
  | .error _, .ok _ => .isFalse (by intro hh; cases hh)

/-- Cell value of the segment table. A pandas NaN (missing value) is
modelled as none; a proper string value v as some v. -/
abbrev Cell := Option String

/-- Equality test between two cells as pandas computes it: a NaN compares
unequal to everything, including another NaN. -/
def cellEq : Cell → Cell → Bool
  | some a, some b => a == b
  | _, _ => false

/-- Name of the segment (non-feature) column, SEGMENT_COL in pyble.py. -/
def SEGMENT_COL : String := "Phoneme"

/-- One table row: the sequence of (column name, cell) entries, in column
order. -/
abbrev Row := List (String × Cell)

/-- Feature matrix: a mapping from feature names to cell values (a Python
dict, or the pandas Series built in the transform loop), in insertion
order. -/
abbrev FeatureMatrix := List (String × Cell)

/-- Lift of a string-valued feature matrix, the type the public methods
take from callers. -/
def liftFM (m : List (String × String)) : FeatureMatrix :=
  m.map fun p => (p.fst, some p.snd)

/-- Pandas DataFrame as used by pyble.py: the column list, the index (one
label per row; Phoneme-valued after set_index) and the rows. -/
structure DataFrame where
  columns : List String
  index : List Cell
  rows : List Row
deriving DecidableEq

/-- DataFrame well-formedness: one index label per row, and every row
carries exactly the declared columns, in order. -/
def DataFrame.wf (df : DataFrame) : Prop :=
  df.index.length = df.rows.length ∧ ∀ r ∈ df.rows, r.map Prod.fst = df.columns

/-- Value of row r in column k (pandas cell access; NaN when absent). -/
def rowCell (r : Row) (k : String) : Cell :=
  (r.lookup k).getD none

/-- Python dict assignment d[k] = v, and likewise a pandas column
assignment restricted to one row: replaces the entry in place when the key
is present, appends the entry otherwise. -/
def dictSet (d : List (String × Cell)) (k : String) (v : Cell) :
    List (String × Cell) :=
  if d.any (fun p => p.fst == k) then
    d.map fun p => if p.fst == k then (k, v) else p
  else d ++ [(k, v)]

/-- Inventory wraps its segments DataFrame (Inventory.__init__). -/
structure Inventory where
  segments : DataFrame
deriving DecidableEq

/-- Row mask of matching_segments: the conjunction, over the feature
matrix entries, of an elementwise pandas equality between the column and
the required value. -/
def rowMatches (fm : FeatureMatrix) (r : Row) : Bool :=
  fm.all fun kv => cellEq (rowCell r kv.fst) kv.snd

/-- Inventory.matching_segments. np.logical_and.reduce of an empty list
is the scalar True, and indexing a DataFrame with that scalar raises
KeyError: True, so the empty matrix is an error; a feature name that is
not a column raises KeyError on the column lookup; otherwise the rows
(with their index labels) satisfying every constraint are kept, in table
order, with the columns unchanged. -/
def Inventory.matching_segments (inv : Inventory) (fm : FeatureMatrix) :
    Except String Inventory :=
  if fm.isEmpty then .error "KeyError: True"
  else
    match fm.find? (fun kv => ! inv.segments.columns.contains kv.fst) with
    | some kv => .error ("KeyError: " ++ kv.fst)
    | none =>
      let pairs := (inv.segments.index.zip inv.segments.rows).filter
        fun p => rowMatches fm p.snd
      .ok ⟨⟨inv.segments.columns, pairs.map Prod.fst, pairs.map Prod.snd⟩⟩

/-- Pandas column assignment df[k] = v with a constant v (one keyword of
DataFrame.assign): sets every cell of an existing column, or appends a
new column on the right. -/
def DataFrame.assignCol (df : DataFrame) (k : String) (v : Cell) : DataFrame :=
  { columns := if df.columns.contains k then df.columns else df.columns ++ [k]
    index := df.index
    rows := df.rows.map fun r => dictSet r k v }

/-- DataFrame.assign(**feature_matrix): assign each entry in order. -/
def DataFrame.assign (df : DataFrame) (fm : FeatureMatrix) : DataFrame :=
  fm.foldl (fun d kv => d.assignCol kv.fst kv.snd) df

/-- Row-level view of DataFrame.assign: folding the matrix entries into
one row with dict assignment. assign applies columns to the whole table;
this equals its effect on each row (proved below). -/
def rowAssign (r : Row) (fm : FeatureMatrix) : Row :=
  fm.foldl (fun r kv => dictSet r kv.fst kv.snd) r

/-- Series.drop(SEGMENT_COL) applied to one row: the feature entries of
the row, the segment entry removed. -/
def rowFeatures (r : Row) : FeatureMatrix :=
  r.filter fun p => p.fst != SEGMENT_COL

/-- Loop body of Inventory.transform over the modified rows:
Series.drop raises KeyError when the segment column is absent from the
row; each row is then matched against the targets and its index label is
mapped to the index labels of the matching target rows. -/
def transformRows (targets : Inventory) :
    List (Cell × Row) → Except String (List (Cell × List Cell))
  | [] => .ok []
  | p :: rest =>
    if ! p.snd.any (fun q => q.fst == SEGMENT_COL) then
      .error ("KeyError: " ++ SEGMENT_COL)
    else
      match targets.matching_segments (rowFeatures p.snd) with
      | .error e => .error e
      | .ok m =>
        match transformRows targets rest with
        | .error e => .error e
        | .ok rest2 => .ok ((p.fst, m.segments.index) :: rest2)

/-- Inventory.transform: assign the feature matrix over the whole table,
then run every (index label, row) pair through the loop above. The Python
result is a dict; with unique index labels it is exactly this association
list. The transform_targets argument defaults to the receiver in Python
and is passed explicitly here. -/
def Inventory.transform (inv : Inventory) (fm : FeatureMatrix)
    (targets : Inventory) : Except String (List (Cell × List Cell)) :=
  let modified := inv.segments.assign fm
  transformRows targets (modified.index.zip modified.rows)

/-- Inventory.add. The method first mutates the caller feature_matrix
dict in place (the segment entry, then a default entry for every
inventory column the dict lacks); the mutated dict is returned as the
second component, modelling its post-call state.
DataFrame.append(dict, ignore_index=True) appends the dict keys absent
from the table as new columns, filling the pre-existing rows with NaN
there, and set_index(SEGMENT_COL, drop=False) re-keys the table by the
segment column. -/
def Inventory.add (inv : Inventory) (segment : String) (fm : FeatureMatrix)
    (default_value : Cell) : Inventory × FeatureMatrix :=
  let fm1 := dictSet fm SEGMENT_COL (some segment)
  let fm2 := inv.segments.columns.foldl
    (fun d c => if d.any (fun p => p.fst == c) then d else d ++ [(c, default_value)])
    fm1
  let newKeys := (fm2.map Prod.fst).filter fun k => ! inv.segments.columns.contains k
  let allRows :=
    (inv.segments.rows.map fun r => r ++ newKeys.map fun k => (k, (none : Cell)))
    ++ [(inv.segments.columns ++ newKeys).map fun c => (c, rowCell fm2 c)]
  (⟨⟨inv.segments.columns ++ newKeys,
      allRows.map fun r => rowCell r SEGMENT_COL, allRows⟩⟩, fm2)

/-- Inventory.drop_features: DataFrame.drop(features, axis=1) raises
KeyError when some name is not a column, else removes the named
columns, leaving the index and the remaining cells unchanged. -/
def Inventory.drop_features (inv : Inventory) (features : List String) :
    Except String Inventory :=
  match features.find? (fun f => ! inv.segments.columns.contains f) with
  | some f => .error ("KeyError: " ++ f ++ " not found in axis")
  | none => .ok ⟨⟨inv.segments.columns.filter (fun c => ! features.contains c),
      inv.segments.index,
      inv.segments.rows.map fun r => r.filter fun p => ! features.contains p.fst⟩⟩

/-- Column values of c down the rows (self.segments[c].to_numpy()). -/
def colValues (df : DataFrame) (c : String) : List Cell :=
  df.rows.map fun r => rowCell r c

/-- Uniformity test (column_values[0] == column_values).all() of pandas:
every value equal, in the NaN-unequal sense, to the first one. -/
def uniformCol (df : DataFrame) (c : String) : Bool :=
  (colValues df c).all fun v => cellEq ((colValues df c).headD none) v

/-- Inventory.drop_redundant_features: iterate over the columns; reading
the first value of a column of a table with no rows is an IndexError; a
column whose values all equal the first one is dropped from the output
copy. -/
def Inventory.drop_redundant_features (inv : Inventory) :
    Except String Inventory :=
  if inv.segments.columns.isEmpty then .ok ⟨inv.segments⟩
  else if inv.segments.rows.isEmpty then
    .error "IndexError: index 0 is out of bounds"
  else
    let dropped := inv.segments.columns.filter fun c => uniformCol inv.segments c
    .ok ⟨⟨inv.segments.columns.filter (fun c => ! dropped.contains c),
      inv.segments.index,
      inv.segments.rows.map fun r => r.filter fun p => ! dropped.contains p.fst⟩⟩

/-- Modelled from the spec of transform (section 4.3): the value of
feature f after the matrix entries are overwritten onto row r; features
the matrix does not mention keep the value of r. -/
def overwrittenCell (r : Row) (fm : FeatureMatrix) (f : String) : Cell :=
  match fm.lookup f with
  | some v => v
  | none => rowCell r f

/-- Feature domain of the overwritten vector: the columns of the source
together with the new features the matrix introduces, with the segment
column excluded. -/
def specDomain (cols : List String) (fm : FeatureMatrix) : List String :=
  (cols ++ (fm.map Prod.fst).filter fun k => ! cols.contains k).filter
    fun c => c != SEGMENT_COL

/-- Spec-side transform, following the claim wording: every segment of
the source maps to the index labels of the target rows whose cells agree
with the overwritten feature vector on every feature of that vector, in
target table order. -/
def transformSpec (inv : Inventory) (fm : FeatureMatrix) (t : Inventory) :
    List (Cell × List Cell) :=
  (inv.segments.index.zip inv.segments.rows).map fun p =>
    (p.fst, ((t.segments.index.zip t.segments.rows).filter fun q =>
      (specDomain inv.segments.columns fm).all fun f =>
        cellEq (rowCell q.snd f) (overwrittenCell p.snd fm f)).map Prod.fst)

/-- Spec-side redundancy predicate: all segments share one identical
proper value in column c. -/
def allShareValue (df : DataFrame) (c : String) : Prop :=
  ∃ v : String, ∀ x ∈ colValues df c, x = some v

/-- Concrete single-segment inventory: /p/ with one feature column. -/
def invP : Inventory :=
  ⟨⟨["Phoneme", "f"], [some "p"], [[("Phoneme", some "p"), ("f", some "-")]]⟩⟩

/-- Concrete two-segment inventory: /p/ and /b/ distinguished by f. -/
def invPB : Inventory :=
  ⟨⟨["Phoneme", "f"], [some "p", some "b"],
    [[("Phoneme", some "p"), ("f", some "-")],
     [("Phoneme", some "b"), ("f", some "+")]]⟩⟩

/-- Concrete source inventory with an extra feature column g. -/
def invPG : Inventory :=
  ⟨⟨["Phoneme", "f", "g"], [some "p"],
    [[("Phoneme", some "p"), ("f", some "-"), ("g", some "0")]]⟩⟩

/-- Concrete target inventory lacking the column g of invPG. -/
def invB : Inventory :=
  ⟨⟨["Phoneme", "f"], [some "b"], [[("Phoneme", some "b"), ("f", some "+")]]⟩⟩

theorem cellEq_none_left (y : Cell) : cellEq none y = false := by
  cases y <;> rfl

theorem cellEq_none_right (x : Cell) : cellEq x none = false := by
  cases x <;> rfl

theorem cellEq_some_some (a b : String) : cellEq (some a) (some b) = (a == b) := rfl

theorem cellEq_some_right_iff (x : Cell) (v : String) :
    cellEq x (some v) = true ↔ x = some v := by
  cases x <;> simp [cellEq_none_left, cellEq_some_some]

theorem cellEq_some_left_iff (v : String) (x : Cell) :
    cellEq (some v) x = true ↔ x = some v := by
  cases x with
  | none => simp [cellEq_none_right]
  | some a =>
    rw [cellEq_some_some, beq_iff_eq]
    exact ⟨fun h => by rw [h], fun h => (Option.some.injEq a v ▸ h).symm⟩

/-- C3 helper and the C9, C6, C10 claims follow below. -/
theorem all_cellEq_head_iff (x : Cell) (xs : List Cell) :
    ((x :: xs).all fun v => cellEq ((x :: xs).headD none) v) = true ↔
      ∃ v : String, ∀ y ∈ x :: xs, y = some v := by
  cases x with
  | none =>
    constructor
    · intro h
      simp [List.all_cons, cellEq_none_left] at h
    · rintro ⟨v, hv⟩
      exact absurd (hv none (by simp)) (by simp)
  | some v0 =>
    constructor
    · intro h
      refine ⟨v0, ?_⟩
      intro y hy
      have := List.all_eq_true.mp h y hy
      simpa [cellEq_some_left_iff] using this
    · rintro ⟨v, hv⟩
      have hv0 : v = v0 := by
        have := hv (some v0) (List.mem_cons_self _ _)
        simpa using this.symm
      subst hv0
      refine List.all_eq_true.mpr ?_
      intro y hy
      rw [hv y hy]
      simp [cellEq_some_some]

theorem uniformCol_iff (df : DataFrame) (c : String) (hr : df.rows ≠ []) :
    uniformCol df c = true ↔ allShareValue df c := by
  have hvs : colValues df c ≠ [] := by simp [colValues, hr]
  cases h : colValues df c with
  | nil => exact absurd h hvs
  | cons x xs =>
    unfold uniformCol allShareValue
    rw [h]
    exact all_cellEq_head_iff x xs

/-- C3: the claim states that matching_segments with the empty feature
matrix returns the inventory unchanged; the code instead reduces an empty
constraint list with np.logical_and to the scalar True and indexes the
DataFrame with it, raising KeyError: True for every inventory. -/
theorem c3_matching_segments_empty_raises (I : Inventory) :
    I.matching_segments [] = .error "KeyError: True" := rfl

/-- C9: on an inventory with zero segments (and at least one column, as
any real inventory has the segment column), drop_redundant_features reads
the first value of a column and fails with an out-of-bounds access. -/
theorem c9_drop_redundant_empty_inventory_error (I : Inventory)
    (h1 : I.segments.columns ≠ []) (h2 : I.segments.rows = []) :
    I.drop_redundant_features = .error "IndexError: index 0 is out of bounds" := by
  simp [Inventory.drop_redundant_features, h1, h2]

theorem c9_witness :
    Inventory.drop_redundant_features ⟨⟨["Phoneme"], [], []⟩⟩ =
      .error "IndexError: index 0 is out of bounds" :=
  c9_drop_redundant_empty_inventory_error ⟨⟨["Phoneme"], [], []⟩⟩ (by decide) rfl

/-- C6: a feature matrix naming a feature absent from the columns makes
matching_segments fail with a feature-not-found error, and drop_features
fails likewise when any requested name is absent; both surface the error
to the caller. -/
theorem c6_unknown_feature_raises (I : Inventory) (fm : FeatureMatrix)
    (fs : List String)
    (h1 : ∃ kv ∈ fm, kv.fst ∉ I.segments.columns)
    (h2 : ∃ f ∈ fs, f ∉ I.segments.columns) :
    (∃ e, I.matching_segments fm = .error e) ∧
      (∃ e, I.drop_features fs = .error e) := by
  constructor
  · obtain ⟨kv, hmem, hnc⟩ := h1
    have hne : fm.isEmpty = false := by
      rw [List.isEmpty_eq_false]
      rintro rfl
      simp at hmem
    have hfind : (fm.find? fun kv => ! I.segments.columns.contains kv.fst).isSome := by
      rw [List.find?_isSome]
      exact ⟨kv, hmem, by simp [hnc]⟩
    cases hf : fm.find? (fun kv => ! I.segments.columns.contains kv.fst) with
    | none => rw [hf] at hfind; simp at hfind
    | some kv2 =>
      refine ⟨"KeyError: " ++ kv2.fst, ?_⟩
      unfold Inventory.matching_segments
      rw [hne, hf]
      simp
  · obtain ⟨f, hmem, hnc⟩ := h2
    have hfind : (fs.find? fun f => ! I.segments.columns.contains f).isSome := by
      rw [List.find?_isSome]
      exact ⟨f, hmem, by simp [hnc]⟩
    cases hf : fs.find? (fun f => ! I.segments.columns.contains f) with
    | none => rw [hf] at hfind; simp at hfind
    | some f2 =>
      refine ⟨"KeyError: " ++ f2 ++ " not found in axis", ?_⟩
      unfold Inventory.drop_features
      rw [hf]

theorem c6_witness :
    (∃ e, invP.matching_segments [("zz", some "+")] = .error e) ∧
      (∃ e, invP.drop_features ["zz"] = .error e) :=
  c6_unknown_feature_raises invP [("zz", some "+")] ["zz"]
    ⟨("zz", some "+"), by decide, by decide⟩ ⟨"zz", by decide, by decide⟩

/-- C10: drop_redundant_features treats the segment column like any
other: when all rows share one segment key value, the output table no
longer contains the segment column, so the segment-identifier invariant
is not preserved. -/
theorem c10_segment_column_dropped (I : Inventory)
    (hr : I.segments.rows ≠ [])
    (hu : allShareValue I.segments SEGMENT_COL) :
    ∃ J, I.drop_redundant_features = .ok J ∧
      SEGMENT_COL ∉ J.segments.columns := by
  by_cases hc : I.segments.columns = []
  · refine ⟨⟨I.segments⟩, by simp [Inventory.drop_redundant_features, hc], ?_⟩
    rw [hc]
    simp
  · have hu2 : uniformCol I.segments SEGMENT_COL = true :=
      (uniformCol_iff _ _ hr).mpr hu
    refine ⟨⟨⟨I.segments.columns.filter
        (fun c => ! (I.segments.columns.filter fun c => uniformCol I.segments c).contains c),
      I.segments.index,
      I.segments.rows.map fun r => r.filter fun p =>
        ! (I.segments.columns.filter fun c => uniformCol I.segments c).contains p.fst⟩⟩,
      by simp [Inventory.drop_redundant_features, hc, hr], ?_⟩
    intro hmem
    rw [List.mem_filter] at hmem
    obtain ⟨hmem1, hmem2⟩ := hmem
    have hdrop : SEGMENT_COL ∈ I.segments.columns.filter fun c => uniformCol I.segments c :=
      List.mem_filter.mpr ⟨hmem1, hu2⟩
    simp only [List.contains_eq_any_beq] at hmem2
    rw [Bool.not_eq_true', List.any_eq_false] at hmem2
    have hfalse := hmem2 SEGMENT_COL hdrop
    simp at hfalse

theorem c10_witness :
    ∃ J, invP.drop_redundant_features = .ok J ∧
      SEGMENT_COL ∉ J.segments.columns :=
  c10_segment_column_dropped invP (by decide) ⟨"p", by decide⟩

/-- C7 counterexample: the claim says only redundant feature columns are
removed, so the segment column of a single-segment inventory survives;
the code also drops the segment column, leaving no columns at all. -/
theorem c7_counterexample :
    SEGMENT_COL ∈ invP.segments.columns ∧
      invP.drop_redundant_features = .ok ⟨⟨[], [some "p"], [[]]⟩⟩ ∧
      SEGMENT_COL ∉ (⟨⟨[], [some "p"], [[]]⟩⟩ : Inventory).segments.columns := by
  decide

/-- C4 counterexample: after add introduces the new column g, the
pre-existing segment /p/ holds the NA marker there, not the explicit
default value "0" the claim promises. -/
theorem c4_counterexample :
    ((invP.add "x" [("g", some "+")] (some "0")).fst.segments.rows.headD []).lookup "g"
        = some none ∧
      some (none : Cell) ≠ some (some "0") := by
  decide

/-- C5 counterexample: add mutates the feature matrix dict handed in by
the caller; its post-call state differs from the original one-entry
matrix. -/
theorem c5_counterexample :
    (invP.add "x" [("g", some "+")] (some "0")).snd ≠ [("g", some "+")] := by
  decide

theorem zip_fst_snd {α β : Type} (l : List (α × β)) :
    (l.map Prod.fst).zip (l.map Prod.snd) = l := by
  induction l with
  | nil => rfl
  | cons p t ih => simp [ih]

/-- Success shape of matching_segments: with a non-empty matrix whose
names are all columns, the filtered rows and their index labels are kept
in table order and the columns are unchanged. -/
theorem matching_segments_ok (I : Inventory) (fm : FeatureMatrix)
    (hne : fm ≠ [])
    (hcols : ∀ kv ∈ fm, kv.fst ∈ I.segments.columns) :
    I.matching_segments fm =
      .ok ⟨⟨I.segments.columns,
        ((I.segments.index.zip I.segments.rows).filter
          fun p => rowMatches fm p.snd).map Prod.fst,
        ((I.segments.index.zip I.segments.rows).filter
          fun p => rowMatches fm p.snd).map Prod.snd⟩⟩ := by
  have hne2 : fm.isEmpty = false := by
    rw [List.isEmpty_eq_false]
    exact hne
  have hfind : fm.find? (fun kv => ! I.segments.columns.contains kv.fst) = none := by
    rw [List.find?_eq_none]
    intro kv hkv
    simp [hcols kv hkv]
  unfold Inventory.matching_segments
  rw [hne2, hfind]
  rfl

theorem rowMatches_liftFM (m : List (String × String)) (r : Row) :
    rowMatches (liftFM m) r = true ↔
      ∀ kv ∈ m, rowCell r kv.fst = some kv.snd := by
  simp only [rowMatches, liftFM, List.all_eq_true]
  constructor
  · intro h kv hkv
    have := h (kv.fst, some kv.snd) (List.mem_map.mpr ⟨kv, hkv, rfl⟩)
    simpa [cellEq_some_right_iff] using this
  · intro h kv hkv
    obtain ⟨kv0, h0, rfl⟩ := List.mem_map.mp hkv
    simpa [cellEq_some_right_iff] using h kv0 h0

/-- C2: matching_segments with a non-empty matrix of known features
returns exactly the segments whose value for each named feature equals
the required one (a conjunction over the pairs), with columns unchanged,
and the result rows form a subsequence of the receiver rows. -/
theorem c2_matching_segments_correct (I : Inventory) (m : List (String × String))
    (hne : m ≠ [])
    (hcols : ∀ kv ∈ m, kv.fst ∈ I.segments.columns) :
    ∃ J, I.matching_segments (liftFM m) = .ok J ∧
      J.segments.columns = I.segments.columns ∧
      (∀ p : Cell × Row,
        p ∈ J.segments.index.zip J.segments.rows ↔
          p ∈ I.segments.index.zip I.segments.rows ∧
            ∀ kv ∈ m, rowCell p.snd kv.fst = some kv.snd) ∧
      (J.segments.index.zip J.segments.rows).Sublist
        (I.segments.index.zip I.segments.rows) := by
  have hne2 : liftFM m ≠ [] := by
    simp [liftFM]
    exact hne
  have hcols2 : ∀ kv ∈ liftFM m, kv.fst ∈ I.segments.columns := by
    intro kv hkv
    obtain ⟨kv0, h0, rfl⟩ := List.mem_map.mp hkv
    exact hcols kv0 h0
  refine ⟨_, matching_segments_ok I (liftFM m) hne2 hcols2, rfl, ?_, ?_⟩
  · intro p
    rw [zip_fst_snd, List.mem_filter, rowMatches_liftFM]
  · rw [zip_fst_snd]
    exact List.filter_sublist _

theorem c2_witness :
    ∃ J, invPB.matching_segments (liftFM [("f", "+")]) = .ok J ∧
      J.segments.columns = invPB.segments.columns ∧
      (∀ p : Cell × Row,
        p ∈ J.segments.index.zip J.segments.rows ↔
          p ∈ invPB.segments.index.zip invPB.segments.rows ∧
            ∀ kv ∈ [("f", "+")], rowCell p.snd kv.fst = some kv.snd) ∧
      (J.segments.index.zip J.segments.rows).Sublist
        (invPB.segments.index.zip invPB.segments.rows) :=
  c2_matching_segments_correct invPB [("f", "+")] (by decide) (by decide)

/-- C8: matching_segments is idempotent; filtering the filtered inventory
with the same matrix returns it unchanged. -/
theorem c8_matching_segments_idempotent (I : Inventory) (fm : FeatureMatrix)
    (hne : fm ≠ [])
    (hcols : ∀ kv ∈ fm, kv.fst ∈ I.segments.columns) :
    ∃ J, I.matching_segments fm = .ok J ∧ J.matching_segments fm = .ok J := by
  refine ⟨_, matching_segments_ok I fm hne hcols, ?_⟩
  have h2 := matching_segments_ok
    ⟨⟨I.segments.columns,
      ((I.segments.index.zip I.segments.rows).filter
        fun p => rowMatches fm p.snd).map Prod.fst,
      ((I.segments.index.zip I.segments.rows).filter
        fun p => rowMatches fm p.snd).map Prod.snd⟩⟩
    fm hne hcols
  rw [h2]
  dsimp only
  rw [zip_fst_snd]
  have hp : ((I.segments.index.zip I.segments.rows).filter
      (fun p => rowMatches fm p.snd)).filter (fun p => rowMatches fm p.snd)
      = (I.segments.index.zip I.segments.rows).filter
          fun p => rowMatches fm p.snd := by
    rw [List.filter_filter]
    exact List.filter_congr fun p _ => by rw [Bool.and_self]
  rw [hp]

theorem c8_witness :
    ∃ J, invPB.matching_segments [("f", some "+")] = .ok J ∧
      J.matching_segments [("f", some "+")] = .ok J :=
  c8_matching_segments_idempotent invPB [("f", some "+")] (by decide) (by decide)

/-- C7 amended: drop_redundant_features keeps the index (hence the
segment set) and removes exactly the columns, the segment-key column
included, on which all segments share one identical proper value; the
surviving columns keep their order. -/
theorem c7_amended (I : Inventory) (hr : I.segments.rows ≠ []) :
    ∃ J, I.drop_redundant_features = .ok J ∧
      J.segments.index = I.segments.index ∧
      (∀ c, c ∈ J.segments.columns ↔
        c ∈ I.segments.columns ∧ ¬ allShareValue I.segments c) ∧
      J.segments.columns.Sublist I.segments.columns := by
  by_cases hc : I.segments.columns = []
  · refine ⟨⟨I.segments⟩,
      by simp [Inventory.drop_redundant_features, hc], rfl, ?_, ?_⟩
    · intro c
      rw [hc]
      simp
    · exact List.Sublist.refl _
  · refine ⟨⟨⟨I.segments.columns.filter
        (fun c => ! (I.segments.columns.filter
          fun c => uniformCol I.segments c).contains c),
      I.segments.index,
      I.segments.rows.map fun r => r.filter fun p =>
        ! (I.segments.columns.filter
          fun c => uniformCol I.segments c).contains p.fst⟩⟩,
      by simp [Inventory.drop_redundant_features, hc, hr], rfl, ?_, ?_⟩
    · intro c
      rw [List.mem_filter]
      constructor
      · rintro ⟨hmem, hnc⟩
        refine ⟨hmem, ?_⟩
        intro hshare
        have hu : uniformCol I.segments c = true := (uniformCol_iff _ _ hr).mpr hshare
        have hdrop : c ∈ I.segments.columns.filter
            fun c => uniformCol I.segments c :=
          List.mem_filter.mpr ⟨hmem, hu⟩
        simp only [List.contains_eq_any_beq] at hnc
        rw [Bool.not_eq_true', List.any_eq_false] at hnc
        have hfalse := hnc c hdrop
        simp at hfalse
      · rintro ⟨hmem, hshare⟩
        refine ⟨hmem, ?_⟩
        simp only [List.contains_eq_any_beq]
        rw [Bool.not_eq_true', List.any_eq_false]
        intro x hx
        rw [List.mem_filter] at hx
        intro hbeq
        have hcx : c = x := by simpa using hbeq
        exact hshare ((uniformCol_iff _ _ hr).mp (hcx ▸ hx.2))
    · exact List.filter_sublist _

theorem c7_amended_witness :
    ∃ J, invPB.drop_redundant_features = .ok J ∧
      J.segments.index = invPB.segments.index ∧
      (∀ c, c ∈ J.segments.columns ↔
        c ∈ invPB.segments.columns ∧ ¬ allShareValue invPB.segments c) ∧
      J.segments.columns.Sublist invPB.segments.columns :=
  c7_amended invPB (by decide)

theorem dictSet_keys (d : List (String × Cell)) (k : String) (v : Cell) :
    (dictSet d k v).map Prod.fst =
      if d.any (fun p => p.fst == k) then d.map Prod.fst
      else d.map Prod.fst ++ [k] := by
  by_cases hany : (d.any fun p => p.fst == k) = true
  · rw [dictSet, if_pos hany, if_pos hany, List.map_map]
    apply List.map_congr_left
    intro p hp
    show (if p.fst == k then (k, v) else p).fst = p.fst
    by_cases hpk : (p.fst == k) = true
    · rw [if_pos hpk]
      exact (eq_of_beq hpk).symm
    · rw [if_neg hpk]
  · rw [dictSet, if_neg hany, if_neg hany, List.map_append]
    rfl

theorem addDefaults_keys_superset (cols : List String) (dv : Cell) :
    ∀ (d : FeatureMatrix) (k : String), k ∈ d.map Prod.fst →
      k ∈ (cols.foldl (fun d c => if d.any (fun p => p.fst == c) then d
        else d ++ [(c, dv)]) d).map Prod.fst := by
  induction cols with
  | nil =>
    intro d k h
    simpa using h
  | cons c cs ih =>
    intro d k h
    rw [List.foldl_cons]
    by_cases hany : (d.any fun p => p.fst == c) = true
    · rw [if_pos hany]
      exact ih d k h
    · rw [if_neg hany]
      refine ih (d ++ [(c, dv)]) k ?_
      rw [List.map_append]
      exact List.mem_append_left _ h

theorem lookup_map_none (ks : List String) (k : String) (h : k ∈ ks) :
    (ks.map fun k2 => (k2, (none : Cell))).lookup k = some none := by
  induction ks with
  | nil => simp at h
  | cons c cs ih =>
    rw [List.map_cons, List.lookup_cons]
    by_cases hk : (k == c) = true
    · rw [hk]
    · have hk2 : (k == c) = false := by
        revert hk
        cases k == c <;> simp
      rw [hk2]
      refine ih ?_
      rcases List.mem_cons.mp h with rfl | h2
      · exact absurd hk2 (by simp)
      · exact h2

/-- C4 amended: a feature named in the matrix but absent from the
columns becomes a new column of the result of add, and every
pre-existing segment receives the NA marker for it, not the explicit
default_value (which only fills the added row for old columns the matrix
does not mention). -/
theorem c4_amended (I : Inventory) (seg : String) (fm : FeatureMatrix)
    (dv : Cell) (f : String)
    (hf : f ∈ fm.map Prod.fst) (habs : f ∉ I.segments.columns)
    (hwf : ∀ r ∈ I.segments.rows, r.map Prod.fst = I.segments.columns) :
    f ∈ (I.add seg fm dv).fst.segments.columns ∧
      ∀ r ∈ (I.add seg fm dv).fst.segments.rows.take I.segments.rows.length,
        r.lookup f = some none := by
  simp only [Inventory.add]
  have hkeys : f ∈ (I.segments.columns.foldl
      (fun d c => if d.any (fun p => p.fst == c) then d
        else d ++ [(c, dv)])
      (dictSet fm SEGMENT_COL (some seg))).map Prod.fst := by
    apply addDefaults_keys_superset
    rw [dictSet_keys]
    split
    · exact hf
    · exact List.mem_append_left _ hf
  have hnew : f ∈ ((I.segments.columns.foldl
      (fun d c => if d.any (fun p => p.fst == c) then d
        else d ++ [(c, dv)])
      (dictSet fm SEGMENT_COL (some seg))).map Prod.fst).filter
        fun k => ! I.segments.columns.contains k :=
    List.mem_filter.mpr ⟨hkeys, by simp [habs]⟩
  constructor
  · exact List.mem_append_right _ hnew
  · intro r hr
    rw [List.take_left' (by rw [List.length_map])] at hr
    obtain ⟨r0, hr0, rfl⟩ := List.mem_map.mp hr
    rw [List.lookup_append]
    have h1 : r0.lookup f = none := by
      rw [List.lookup_eq_none_iff]
      intro p hp
      have hpc : p.fst ∈ I.segments.columns := by
        rw [← hwf r0 hr0]
        exact List.mem_map.mpr ⟨p, hp, rfl⟩
      have hne : f ≠ p.fst := fun he => habs (he ▸ hpc)
      simpa using hne
    rw [h1, Option.none_or]
    exact lookup_map_none _ _ hnew

theorem c4_amended_witness :
    "g" ∈ (invP.add "x" [("g", some "+")] (some "0")).fst.segments.columns ∧
      ∀ r ∈ (invP.add "x" [("g", some "+")]
          (some "0")).fst.segments.rows.take invP.segments.rows.length,
        r.lookup "g" = some none :=
  c4_amended invP "x" [("g", some "+")] (some "0") "g"
    (by decide) (by decide) (by decide)

theorem beq_comm_str (a b : String) : (a == b) = (b == a) := by
  by_cases h : a = b
  · rw [h]
  · rw [beq_eq_false_iff_ne.mpr h, beq_eq_false_iff_ne.mpr fun he => h he.symm]

theorem keys_contains_eq_any (fm : FeatureMatrix) (c : String) :
    (fm.map Prod.fst).contains c = fm.any fun p => p.fst == c := by
  induction fm with
  | nil => rfl
  | cons p t ih =>
    rw [List.map_cons, List.contains_cons, List.any_cons, ih, beq_comm_str c p.fst]

theorem addDefaults_eq (cols : List String) (dv : Cell) :
    ∀ (d : FeatureMatrix), cols.Nodup →
      cols.foldl (fun d c => if d.any (fun p => p.fst == c) then d
        else d ++ [(c, dv)]) d
      = d ++ (cols.filter fun c => ! d.any fun p => p.fst == c).map
          fun c => (c, dv) := by
  induction cols with
  | nil =>
    intro d _
    simp
  | cons c cs ih =>
    intro d hnd
    rw [List.foldl_cons, List.nodup_cons] at *
    by_cases hany : (d.any fun p => p.fst == c) = true
    · rw [if_pos hany, ih d hnd.2, List.filter_cons]
      have hcond : (! d.any fun p => p.fst == c) = false := by
        rw [hany]
        rfl
      rw [hcond]
      simp
    · have hany2 : (d.any fun p => p.fst == c) = false := by
        revert hany
        cases d.any fun p => p.fst == c <;> simp
      rw [if_neg hany, ih (d ++ [(c, dv)]) hnd.2, List.filter_cons, hany2]
      have hfc : (cs.filter fun c2 => ! (d ++ [(c, dv)]).any fun p => p.fst == c2)
          = cs.filter fun c2 => ! d.any fun p => p.fst == c2 := by
        apply List.filter_congr
        intro c2 hc2
        have hne2 : (c == c2) = false :=
          beq_eq_false_iff_ne.mpr fun he => hnd.1 (he ▸ hc2)
        simp [List.any_append, hne2]
      rw [hfc]
      simp

/-- C5 amended: no operation mutates the receiver table, but add does
mutate the feature matrix dict handed in by the caller: its post-call
state is the original entries followed by the segment-key entry and a
default entry for every inventory column that is neither named in the
matrix nor the segment column itself. -/
theorem c5_amended (I : Inventory) (seg : String) (fm : FeatureMatrix)
    (dv : Cell)
    (hseg : SEGMENT_COL ∉ fm.map Prod.fst) (hcols : I.segments.columns.Nodup) :
    (I.add seg fm dv).snd =
      fm ++ [(SEGMENT_COL, some seg)] ++
        (I.segments.columns.filter fun c =>
          ! ((fm.map Prod.fst).contains c || c == SEGMENT_COL)).map
          fun c => (c, dv) := by
  have hany : (fm.any fun p => p.fst == SEGMENT_COL) = false := by
    rw [Bool.eq_false_iff]
    intro hx
    obtain ⟨p, hp, hpeq⟩ := List.any_eq_true.mp hx
    exact hseg (List.mem_map.mpr ⟨p, hp, eq_of_beq hpeq⟩)
  have h1 : dictSet fm SEGMENT_COL (some seg) = fm ++ [(SEGMENT_COL, some seg)] := by
    rw [dictSet, if_neg (by rw [hany]; simp)]
  simp only [Inventory.add]
  rw [h1, addDefaults_eq _ dv _ hcols]
  have hfilter : (I.segments.columns.filter fun c =>
      ! (fm ++ [(SEGMENT_COL, some seg)]).any fun p => p.fst == c)
      = I.segments.columns.filter fun c =>
        ! ((fm.map Prod.fst).contains c || c == SEGMENT_COL) := by
    apply List.filter_congr
    intro c hc
    rw [List.any_append]
    have hsingle : ([((SEGMENT_COL : String), (some seg : Cell))].any
        fun p => p.fst == c) = (SEGMENT_COL == c) := by
      simp
    rw [hsingle, keys_contains_eq_any, beq_comm_str c SEGMENT_COL]
  rw [hfilter]

theorem c5_amended_witness :
    (invP.add "x" [("g", some "+")] (some "0")).snd =
      [("g", some "+")] ++ [(SEGMENT_COL, some "x")] ++
        (invP.segments.columns.filter fun c =>
          ! (([("g", some "+")].map Prod.fst).contains c
            || c == SEGMENT_COL)).map fun c => (c, some "0") :=
  c5_amended invP "x" [("g", some "+")] (some "0") (by decide) (by decide)

theorem bool_eq_false {b : Bool} (h : ¬ b = true) : b = false := by
  revert h
  cases b <;> simp

theorem lookup_eq_none_of_not_mem_keys (r : Row) (k : String)
    (h : k ∉ r.map Prod.fst) : r.lookup k = none := by
  rw [List.lookup_eq_none_iff]
  intro p hp
  have hmem : p.fst ∈ r.map Prod.fst := List.mem_map.mpr ⟨p, hp, rfl⟩
  have hne : k ≠ p.fst := fun he => h (he ▸ hmem)
  simpa using hne

theorem lookup_map_dictSet_self (d : List (String × Cell)) (k : String) (v : Cell)
    (h : (d.any fun p => p.fst == k) = true) :
    (d.map fun p => if p.fst == k then (k, v) else p).lookup k = some v := by
  induction d with
  | nil => simp at h
  | cons p t ih =>
    rw [List.map_cons]
    by_cases hp : (p.fst == k) = true
    · rw [if_pos hp]
      exact List.lookup_cons_self
    · rw [if_neg hp, List.lookup_cons]
      have hp2 : (p.fst == k) = false := bool_eq_false hp
      have hk : (k == p.fst) = false := by
        rw [beq_comm_str]
        exact hp2
      rw [hk]
      apply ih
      rw [List.any_cons, hp2] at h
      simpa using h

theorem lookup_append_right_self (d : List (String × Cell)) (k : String) (v : Cell)
    (h : (d.any fun p => p.fst == k) = false) :
    (d ++ [(k, v)]).lookup k = some v := by
  rw [List.lookup_append]
  have hnone : d.lookup k = none := by
    rw [List.lookup_eq_none_iff]
    intro p hp
    have h2 : ¬ (p.fst == k) = true := by
      rw [List.any_eq_false] at h
      exact h p hp
    have h3 : p.fst ≠ k := fun he => h2 (by rw [he]; simp)
    simpa using fun he => h3 he.symm
  rw [hnone, Option.none_or, List.lookup_cons_self]

theorem dictSet_lookup_self (d : List (String × Cell)) (k : String) (v : Cell) :
    (dictSet d k v).lookup k = some v := by
  by_cases h : (d.any fun p => p.fst == k) = true
  · rw [dictSet, if_pos h]
    exact lookup_map_dictSet_self d k v h
  · rw [dictSet, if_neg h]
    exact lookup_append_right_self d k v (bool_eq_false h)

theorem dictSet_lookup_ne (d : List (String × Cell)) (k k2 : String) (v : Cell)
    (hne : k2 ≠ k) :
    (dictSet d k v).lookup k2 = d.lookup k2 := by
  have hbeq : (k2 == k) = false := beq_eq_false_iff_ne.mpr hne
  by_cases h : (d.any fun p => p.fst == k) = true
  · rw [dictSet, if_pos h]
    clear h
    induction d with
    | nil => rfl
    | cons p t ih =>
      rw [List.map_cons]
      by_cases hp : (p.fst == k) = true
      · rw [if_pos hp, List.lookup_cons, List.lookup_cons]
        have hkp : (k2 == p.fst) = false := by
          rw [eq_of_beq hp]
          exact hbeq
        rw [hkp, hbeq, ih]
      · rw [if_neg hp, List.lookup_cons, List.lookup_cons]
        cases h2 : k2 == p.fst
        · exact ih
        · rfl
  · rw [dictSet, if_neg h, List.lookup_append]
    have hsingle : ([((k : String), (v : Cell))].lookup k2) = none := by
      rw [List.lookup_cons, hbeq]
      rfl
    rw [hsingle, Option.or_none]

theorem assign_index (fm : FeatureMatrix) :
    ∀ df : DataFrame, (df.assign fm).index = df.index := by
  induction fm with
  | nil =>
    intro df
    rfl
  | cons kv t ih =>
    intro df
    rw [DataFrame.assign, List.foldl_cons]
    exact ih (df.assignCol kv.fst kv.snd)

theorem assign_rows (fm : FeatureMatrix) :
    ∀ df : DataFrame, (df.assign fm).rows = df.rows.map fun r => rowAssign r fm := by
  induction fm with
  | nil =>
    intro df
    simp [DataFrame.assign, rowAssign]
  | cons kv t ih =>
    intro df
    rw [DataFrame.assign, List.foldl_cons]
    have step : List.foldl (fun d kv => d.assignCol kv.fst kv.snd)
        (df.assignCol kv.fst kv.snd) t = (df.assignCol kv.fst kv.snd).assign t := rfl
    rw [step, ih]
    show (df.rows.map fun r => dictSet r kv.fst kv.snd).map (fun r => rowAssign r t)
      = df.rows.map fun r => rowAssign r (kv :: t)
    rw [List.map_map]
    apply List.map_congr_left
    intro r hr
    rfl

theorem assign_columns (fm : FeatureMatrix) :
    ∀ df : DataFrame, (fm.map Prod.fst).Nodup →
      (df.assign fm).columns
        = df.columns ++ (fm.map Prod.fst).filter fun k => ! df.columns.contains k := by
  induction fm with
  | nil =>
    intro df _
    simp [DataFrame.assign]
  | cons kv t ih =>
    intro df hnd
    rw [List.map_cons, List.nodup_cons] at hnd
    rw [DataFrame.assign, List.foldl_cons]
    have step : List.foldl (fun d kv => d.assignCol kv.fst kv.snd)
        (df.assignCol kv.fst kv.snd) t = (df.assignCol kv.fst kv.snd).assign t := rfl
    rw [step, ih _ hnd.2]
    by_cases hin : df.columns.contains kv.fst = true
    · have hcols : (df.assignCol kv.fst kv.snd).columns = df.columns := by
        simp only [DataFrame.assignCol]
        rw [if_pos hin]
      rw [hcols, List.map_cons, List.filter_cons]
      have hcond : (! df.columns.contains kv.fst) = false := by
        rw [hin]
        rfl
      rw [hcond]
      simp
    · have hin2 : df.columns.contains kv.fst = false := bool_eq_false hin
      have hcols : (df.assignCol kv.fst kv.snd).columns = df.columns ++ [kv.fst] := by
        simp only [DataFrame.assignCol]
        rw [if_neg hin]
      rw [hcols]
      have hfc : ((t.map Prod.fst).filter fun k => ! (df.columns ++ [kv.fst]).contains k)
          = (t.map Prod.fst).filter fun k => ! df.columns.contains k := by
        apply List.filter_congr
        intro k hk
        have hkk : (k == kv.fst) = false :=
          beq_eq_false_iff_ne.mpr fun he => hnd.1 (he ▸ hk)
        rw [List.contains_eq_any_beq, List.contains_eq_any_beq, List.any_append]
        simp [hkk]
      rw [hfc, List.map_cons, List.filter_cons]
      have hcond : (! df.columns.contains kv.fst) = true := by
        rw [hin2]
        rfl
      rw [hcond, if_pos rfl]
      simp [List.append_assoc]

theorem rowAssign_keys (fm : FeatureMatrix) :
    ∀ r : Row, (fm.map Prod.fst).Nodup →
      (rowAssign r fm).map Prod.fst
        = r.map Prod.fst ++ (fm.map Prod.fst).filter
            fun k => ! (r.map Prod.fst).contains k := by
  induction fm with
  | nil =>
    intro r _
    simp [rowAssign]
  | cons kv t ih =>
    intro r hnd
    rw [List.map_cons, List.nodup_cons] at hnd
    rw [rowAssign, List.foldl_cons]
    have step : List.foldl (fun r kv => dictSet r kv.fst kv.snd)
        (dictSet r kv.fst kv.snd) t = rowAssign (dictSet r kv.fst kv.snd) t := rfl
    rw [step, ih _ hnd.2, dictSet_keys]
    by_cases hin : (r.any fun p => p.fst == kv.fst) = true
    · rw [if_pos hin]
      have hc : (r.map Prod.fst).contains kv.fst = true := by
        rw [keys_contains_eq_any]
        exact hin
      rw [List.map_cons, List.filter_cons]
      have hcond : (! (r.map Prod.fst).contains kv.fst) = false := by
        rw [hc]
        rfl
      rw [hcond]
      simp
    · rw [if_neg hin]
      have hin2 : (r.map Prod.fst).contains kv.fst = false := by
        rw [keys_contains_eq_any]
        exact bool_eq_false hin
      have hfc : ((t.map Prod.fst).filter
            fun k => ! (r.map Prod.fst ++ [kv.fst]).contains k)
          = (t.map Prod.fst).filter fun k => ! (r.map Prod.fst).contains k := by
        apply List.filter_congr
        intro k hk
        have hkk : (k == kv.fst) = false :=
          beq_eq_false_iff_ne.mpr fun he => hnd.1 (he ▸ hk)
        rw [List.contains_eq_any_beq, List.contains_eq_any_beq, List.any_append]
        simp [hkk]
      rw [hfc, List.map_cons, List.filter_cons]
      have hcond : (! (r.map Prod.fst).contains kv.fst) = true := by
        rw [hin2]
        rfl
      rw [hcond, if_pos rfl]
      simp [List.append_assoc]

theorem rowAssign_lookup (fm : FeatureMatrix) :
    ∀ (r : Row) (k : String), (fm.map Prod.fst).Nodup →
      (rowAssign r fm).lookup k
        = match fm.lookup k with
          | some v => some v
          | none => r.lookup k := by
  induction fm with
  | nil =>
    intro r k _
    rfl
  | cons kv t ih =>
    intro r k hnd
    rw [List.map_cons, List.nodup_cons] at hnd
    rw [rowAssign, List.foldl_cons]
    have step : List.foldl (fun r kv => dictSet r kv.fst kv.snd)
        (dictSet r kv.fst kv.snd) t = rowAssign (dictSet r kv.fst kv.snd) t := rfl
    rw [step, List.lookup_cons]
    by_cases hk : (k == kv.fst) = true
    · rw [hk]
      have hkeq : k = kv.fst := eq_of_beq hk
      have htnone : t.lookup k = none := by
        apply lookup_eq_none_of_not_mem_keys
        rw [hkeq]
        exact hnd.1
      rw [ih _ _ hnd.2, htnone, hkeq]
      exact dictSet_lookup_self r kv.fst kv.snd
    · have hk2 : (k == kv.fst) = false := bool_eq_false hk
      rw [hk2, ih _ _ hnd.2]
      cases ht : t.lookup k
      · exact dictSet_lookup_ne r kv.fst k kv.snd (beq_eq_false_iff_ne.mp hk2)
      · rfl

theorem map_fst_filter_fst (p : String → Bool) (r : Row) :
    ((r.filter fun q => p q.fst).map Prod.fst) = (r.map Prod.fst).filter p := by
  induction r with
  | nil => rfl
  | cons q t ih =>
    rw [List.filter_cons, List.map_cons, List.filter_cons]
    by_cases h : p q.fst = true
    · rw [if_pos h, if_pos h, List.map_cons, ih]
    · rw [if_neg h, if_neg h, ih]

theorem lookup_filter_keys (p : String → Bool) (r : Row) (k : String)
    (hk : p k = true) :
    (r.filter fun q => p q.fst).lookup k = r.lookup k := by
  induction r with
  | nil => rfl
  | cons q t ih =>
    rw [List.filter_cons, List.lookup_cons]
    by_cases h : p q.fst = true
    · rw [if_pos h, List.lookup_cons]
      cases h2 : k == q.fst
      · exact ih
      · rfl
    · rw [if_neg h, ih]
      have hne : (k == q.fst) = false :=
        beq_eq_false_iff_ne.mpr fun he => h (he ▸ hk)
      rw [hne]

theorem all_congr_mem {α : Type} {l : List α} {p q : α → Bool}
    (h : ∀ a ∈ l, p a = q a) : l.all p = l.all q := by
  induction l with
  | nil => rfl
  | cons a t ih =>
    rw [List.all_cons, List.all_cons, h a (List.mem_cons_self a t),
      ih fun b hb => h b (List.mem_cons_of_mem a hb)]

theorem all_entries_eq_keys (P : String → Cell → Bool) :
    ∀ r : Row, (r.map Prod.fst).Nodup →
      (r.all fun q => P q.fst q.snd)
        = (r.map Prod.fst).all fun k => P k (rowCell r k) := by
  intro r
  induction r with
  | nil =>
    intro _
    rfl
  | cons q t ih =>
    intro hnd
    rw [List.map_cons, List.nodup_cons] at hnd
    rw [List.all_cons, List.map_cons, List.all_cons]
    have h1 : rowCell (q :: t) q.fst = q.snd := by
      rw [rowCell, List.lookup_cons_self]
      rfl
    rw [h1, ih hnd.2]
    have h2 : ((t.map Prod.fst).all fun k => P k (rowCell t k))
        = (t.map Prod.fst).all fun k => P k (rowCell (q :: t) k) := by
      apply all_congr_mem
      intro k hk
      have hne : (k == q.fst) = false :=
        beq_eq_false_iff_ne.mpr fun he => hnd.1 (he ▸ hk)
      simp only [rowCell]
      rw [List.lookup_cons, hne]
    rw [h2]

theorem rowCell_rowAssign (r : Row) (fm : FeatureMatrix) (k : String)
    (hfnd : (fm.map Prod.fst).Nodup) :
    rowCell (rowAssign r fm) k = overwrittenCell r fm k := by
  rw [rowCell, rowAssign_lookup fm r k hfnd, overwrittenCell]
  cases fm.lookup k
  · rfl
  · rfl

theorem any_fst_of_mem_keys (r : Row) (k : String) (h : k ∈ r.map Prod.fst) :
    (r.any fun q => q.fst == k) = true := by
  obtain ⟨e, he, hek⟩ := List.mem_map.mp h
  refine List.any_eq_true.mpr ⟨e, he, ?_⟩
  rw [hek]
  simp

/-- Row-level form of the transform loop test: matching the features of
the assigned row equals comparing the target row with the overwritten
vector of the source row on every feature of the overwritten domain. -/
theorem rowMatches_features_eq (cols : List String) (fm : FeatureMatrix)
    (r trow : Row)
    (hcnd : cols.Nodup) (hfnd : (fm.map Prod.fst).Nodup)
    (hkeys : r.map Prod.fst = cols) :
    rowMatches (rowFeatures (rowAssign r fm)) trow
      = (specDomain cols fm).all fun f =>
          cellEq (rowCell trow f) (overwrittenCell r fm f) := by
  have hmkeys : (rowAssign r fm).map Prod.fst
      = cols ++ (fm.map Prod.fst).filter fun k => ! cols.contains k := by
    rw [rowAssign_keys fm r hfnd, hkeys]
  have hmnd : ((rowAssign r fm).map Prod.fst).Nodup := by
    rw [hmkeys, List.nodup_append]
    refine ⟨hcnd, List.Nodup.filter _ hfnd, ?_⟩
    intro a ha hb
    rw [List.mem_filter] at hb
    have hno : a ∉ cols := by simpa using hb.2
    exact hno ha
  have hmf : ((rowAssign r fm).filter fun q => q.fst != SEGMENT_COL).map Prod.fst
      = ((rowAssign r fm).map Prod.fst).filter fun s => s != SEGMENT_COL :=
    map_fst_filter_fst (fun s => s != SEGMENT_COL) (rowAssign r fm)
  have hfnd2 : ((rowFeatures (rowAssign r fm)).map Prod.fst).Nodup := by
    rw [rowFeatures, hmf]
    exact List.Nodup.filter _ hmnd
  have hfkeys : (rowFeatures (rowAssign r fm)).map Prod.fst
      = specDomain cols fm := by
    rw [rowFeatures, hmf, hmkeys, specDomain]
  have h1 : rowMatches (rowFeatures (rowAssign r fm)) trow
      = ((rowFeatures (rowAssign r fm)).map Prod.fst).all
          fun k => cellEq (rowCell trow k) (rowCell (rowFeatures (rowAssign r fm)) k) :=
    all_entries_eq_keys (fun k v => cellEq (rowCell trow k) v)
      (rowFeatures (rowAssign r fm)) hfnd2
  rw [h1, hfkeys]
  apply all_congr_mem
  intro k hk
  have hkf : (k != SEGMENT_COL) = true := by
    rw [specDomain] at hk
    exact (List.mem_filter.mp hk).2
  have hlf : ((rowAssign r fm).filter fun q => q.fst != SEGMENT_COL).lookup k
      = (rowAssign r fm).lookup k :=
    lookup_filter_keys (fun s => s != SEGMENT_COL) (rowAssign r fm) k hkf
  have hcell : rowCell (rowFeatures (rowAssign r fm)) k
      = rowCell (rowAssign r fm) k := by
    rw [rowCell, rowCell, rowFeatures, hlf]
  rw [hcell, rowCell_rowAssign r fm k hfnd]

/-- Success shape of the transform loop: when every row carries the
segment column, has at least one feature, and every feature of every row
is a column of the targets, each index label maps to the index labels of
the matching target rows. -/
theorem transformRows_ok (t : Inventory) :
    ∀ ps : List (Cell × Row),
      (∀ p ∈ ps, (p.snd.any fun q => q.fst == SEGMENT_COL) = true) →
      (∀ p ∈ ps, rowFeatures p.snd ≠ []) →
      (∀ p ∈ ps, ∀ kv ∈ rowFeatures p.snd, kv.fst ∈ t.segments.columns) →
      transformRows t ps = .ok (ps.map fun p =>
        (p.fst, ((t.segments.index.zip t.segments.rows).filter
          fun q => rowMatches (rowFeatures p.snd) q.snd).map Prod.fst)) := by
  intro ps
  induction ps with
  | nil =>
    intro _ _ _
    rfl
  | cons p rest ih =>
    intro hseg hne hcols
    have h1 := hseg p (List.mem_cons_self p rest)
    have h2 := matching_segments_ok t (rowFeatures p.snd)
      (hne p (List.mem_cons_self p rest)) (hcols p (List.mem_cons_self p rest))
    have h3 := ih (fun q hq => hseg q (List.mem_cons_of_mem p hq))
      (fun q hq => hne q (List.mem_cons_of_mem p hq))
      (fun q hq => hcols q (List.mem_cons_of_mem p hq))
    rw [transformRows, h1, h2, h3]
    rfl

/-- C1 amended: transform succeeds and returns the spec mapping provided
every feature of the overwritten vector (the source feature columns plus
the new names of the matrix) is a column of the targets and the
overwritten vector is non-empty; the match then runs over all those
features (extra target columns are unconstrained), a segment with no
matching target gets the empty list without error, and the keys are
exactly the source index labels in order. Without the extra conditions
the call fails (see the counterexample). -/
theorem c1_transform_spec (inv : Inventory) (fm : FeatureMatrix) (t : Inventory)
    (hwf : inv.segments.wf)
    (hcnd : inv.segments.columns.Nodup)
    (hfnd : (fm.map Prod.fst).Nodup)
    (hseg : SEGMENT_COL ∈ inv.segments.columns)
    (hdom : specDomain inv.segments.columns fm ≠ [])
    (htgt : ∀ f ∈ specDomain inv.segments.columns fm, f ∈ t.segments.columns) :
    inv.transform fm t = .ok (transformSpec inv fm t) ∧
      (transformSpec inv fm t).map Prod.fst = inv.segments.index := by
  obtain ⟨hlen, hrows⟩ := hwf
  have hzip : (inv.segments.assign fm).index.zip (inv.segments.assign fm).rows
      = (inv.segments.index.zip inv.segments.rows).map
          fun p => (p.fst, rowAssign p.snd fm) := by
    rw [assign_index, assign_rows, List.zip_map_right]
    apply List.map_congr_left
    intro p hp
    rfl
  have hfkeys : ∀ r0 ∈ inv.segments.rows,
      (rowFeatures (rowAssign r0 fm)).map Prod.fst
        = specDomain inv.segments.columns fm := by
    intro r0 hr0
    have hmf : ((rowAssign r0 fm).filter fun q => q.fst != SEGMENT_COL).map Prod.fst
        = ((rowAssign r0 fm).map Prod.fst).filter fun s => s != SEGMENT_COL :=
      map_fst_filter_fst (fun s => s != SEGMENT_COL) (rowAssign r0 fm)
    rw [rowFeatures, hmf, rowAssign_keys fm r0 hfnd, hrows r0 hr0, specDomain]
  constructor
  · show transformRows t
        ((inv.segments.assign fm).index.zip (inv.segments.assign fm).rows)
      = .ok (transformSpec inv fm t)
    rw [hzip]
    rw [transformRows_ok t _ ?hs ?hn ?hc]
    case hs =>
      intro q hq
      obtain ⟨⟨idx0, r0⟩, hp0, rfl⟩ := List.mem_map.mp hq
      apply any_fst_of_mem_keys
      rw [rowAssign_keys fm r0 hfnd, hrows r0 (List.of_mem_zip hp0).2]
      exact List.mem_append_left _ hseg
    case hn =>
      intro q hq
      obtain ⟨⟨idx0, r0⟩, hp0, rfl⟩ := List.mem_map.mp hq
      intro hnil
      apply hdom
      rw [← hfkeys r0 (List.of_mem_zip hp0).2]
      rw [hnil]
      rfl
    case hc =>
      intro q hq kv hkv
      obtain ⟨⟨idx0, r0⟩, hp0, rfl⟩ := List.mem_map.mp hq
      apply htgt
      rw [← hfkeys r0 (List.of_mem_zip hp0).2]
      exact List.mem_map.mpr ⟨kv, hkv, rfl⟩
    rw [List.map_map, transformSpec]
    apply congrArg Except.ok
    apply List.map_congr_left
    intro p hp
    show (p.fst, ((t.segments.index.zip t.segments.rows).filter
        fun q => rowMatches (rowFeatures (rowAssign p.snd fm)) q.snd).map Prod.fst)
      = (p.fst, ((t.segments.index.zip t.segments.rows).filter fun q =>
          (specDomain inv.segments.columns fm).all fun f =>
            cellEq (rowCell q.snd f) (overwrittenCell p.snd fm f)).map Prod.fst)
    have hfilter : ((t.segments.index.zip t.segments.rows).filter
        fun q => rowMatches (rowFeatures (rowAssign p.snd fm)) q.snd)
        = (t.segments.index.zip t.segments.rows).filter fun q =>
            (specDomain inv.segments.columns fm).all fun f =>
              cellEq (rowCell q.snd f) (overwrittenCell p.snd fm f) := by
      apply List.filter_congr
      intro q hq
      exact rowMatches_features_eq inv.segments.columns fm p.snd q.snd hcnd hfnd
        (hrows p.snd (List.of_mem_zip (show (p.fst, p.snd) ∈ _ from hp)).2)
    rw [hfilter]
  · rw [transformSpec, List.map_map]
    have h2 : (inv.segments.index.zip inv.segments.rows).map
        (Prod.fst ∘ fun p => (p.fst,
          ((t.segments.index.zip t.segments.rows).filter fun q =>
            (specDomain inv.segments.columns fm).all fun f =>
              cellEq (rowCell q.snd f) (overwrittenCell p.snd fm f)).map Prod.fst))
        = (inv.segments.index.zip inv.segments.rows).map Prod.fst :=
      List.map_congr_left fun p _ => rfl
    rw [h2, List.map_fst_zip _ _ (le_of_eq hlen)]

theorem c1_witness :
    invPB.transform [("f", some "+")] invPB
        = .ok (transformSpec invPB [("f", some "+")] invPB) ∧
      (transformSpec invPB [("f", some "+")] invPB).map Prod.fst
        = invPB.segments.index :=
  c1_transform_spec invPB [("f", some "+")] invPB (by constructor <;> decide)
    (by decide) (by decide) (by decide) (by decide) (by decide)

/-- C1 counterexample: the claim promises that the match is restricted
to the features present in the targets, so transforming invPG (which has
the extra column g) against the target invB (which lacks g) should
return the mapping p to [b]; the code instead passes the g entry to
matching_segments on the target and fails with a feature-not-found
error. -/
theorem c1_counterexample :
    invPG.transform [("f", some "+")] invB = .error "KeyError: g" := by
  decide
